import Mathlib

/-
  Verification of the crossword constraint-satisfaction engine in
  `generate.py` (class `CrosswordCreator`).

  The engine is shallowly embedded: Python sets of strings become Lean
  `List (List Char)` values (with a fixed, deterministic iteration order
  standing in for CPython's set/dict iteration order), the mutable
  `self.domains` dict becomes an explicitly threaded `DomainMap`, and the
  mutable `assignment` dict becomes an association list threaded through
  `backtrack`, whose exit state is returned alongside the result so that
  the mutation visible to the caller is captured.

  Two Python peculiarities of the source are modelled by name:
  `pyNeNatSet` (the expression `len(xOriginal) != self.domains[x]`, an
  `int != set` comparison, which is always `True` in Python) and
  `pyEqSetNat` (the expression `self.domains[q[0]] == 0`, a `set == int`
  comparison, which is always `False` in Python).
-/

namespace Scrabble

/-- A word is a list of characters (a Python string viewed as a character
sequence; `w[i]` is positional indexing). -/
abbrev Word := List Char

/-- Modelled from the spec (§3): a slot ("variable" in `crossword.py`, which
is not under src/): origin `(i, j)`, a direction (`true` = across,
`false` = down) and a length; identity is structural. -/
structure Variable where
  i : Nat
  j : Nat
  direction : Bool
  length : Nat
deriving DecidableEq

/-- Modelled from the spec (§3, §6): the Puzzle Model collaborator
(`crossword.py`, not under src/): a finite enumerable list of slots, the
word pool, and for any ordered pair of slots the overlap lookup returning
the `(indexInFirst, indexInSecond)` pair when the two slots cross and
nothing otherwise. -/
structure Crossword where
  vars : List Variable
  words : List Word
  overlaps : Variable → Variable → Option (Nat × Nat)

/-- Modelled from the spec (§3): a slot's neighbors are all other slots
with which it has an overlap record (`crossword.py`'s `neighbors`). -/
def neighbors (c : Crossword) (v : Variable) : List Variable :=
  c.vars.filter (fun u => decide (u ≠ v) && (c.overlaps v u).isSome)

/-- The domain store: for every slot, the list of words still considered
possible (`self.domains`). -/
abbrev DomainMap := Variable → List Word

/-- An assignment: the `assignment` dict, as an association list in key
insertion order. -/
abbrev Assignment := List (Variable × Word)

/-- Character of `w` at position `i` (Python `w[i]`; out-of-range access,
which raises IndexError in Python, is mapped to a default character and is
outside every context exercised below). -/
def chAt (w : Word) (i : Nat) : Char :=
  w.getD i ' '

/-- Python `len(xOriginal) != self.domains[x]` at the end of `revise`:
an `int != set` comparison, which is always `True`. -/
def pyNeNatSet (_n : Nat) (_l : List Word) : Bool := true

/-- Python `self.domains[q[0]] == 0` inside `ac3`: a `set == int`
comparison, which is always `False`. -/
def pyEqSetNat (_l : List Word) (_n : Nat) : Bool := false

/-- Python `variable in assignment` on the assignment dict. -/
def hasKeyA : Assignment → Variable → Bool
  | [], _ => false
  | p :: t, v => if p.1 = v then true else hasKeyA t v

/-- Python `assignment[vecino]` lookup on the assignment dict. -/
def lookupA : Assignment → Variable → Option Word
  | [], _ => none
  | p :: t, v => if p.1 = v then some p.2 else lookupA t v

/-- Python `assignment[variable] = value`: overwrite in place when the key
is present, append otherwise (dicts preserve insertion order). -/
def insertA (a : Assignment) (v : Variable) (w : Word) : Assignment :=
  if hasKeyA a v then a.map (fun p => if p.1 = v then (v, w) else p)
  else a ++ [(v, w)]

/-- Python `assignment.pop(variable)`: remove the key. -/
def eraseA (a : Assignment) (v : Variable) : Assignment :=
  a.filter (fun p => decide (p.1 ≠ v))

/-- `enforce_node_consistency`: replace each slot's domain by the words
whose length equals the slot's length (the dict comprehension ranges over
every slot key of `self.domains`; here the map is narrowed pointwise). -/
def enforce_node_consistency (d : DomainMap) : DomainMap :=
  fun var => (d var).filter (fun dom => decide (dom.length = var.length))

/-- `revise(x, y)`: `yOverlap, xOverlap = overlaps[y, x]`; then
`auxiliar` accumulates, for each `domY` in `domains[y]`, the words of
`domains[x]` matching `domY` at the overlap — with `domY` itself removed
from that batch (`if domY in res: res.remove(domY)`) — deduplicated
against what is already accumulated; finally `domains[x] = auxiliar` and
the function returns `len(xOriginal) != self.domains[x]` (see
`pyNeNatSet`). `none` models the `TypeError` raised when
`overlaps[y, x]` is `None` (no overlap record for the pair). -/
def revise (c : Crossword) (d : DomainMap) (x y : Variable) :
    Option (DomainMap × Bool) :=
  match c.overlaps y x with
  | none => none
  | some ov =>
    let yOverlap := ov.1
    let xOverlap := ov.2
    let xOriginal := d x
    let auxiliar :=
      (d y).foldl
        (fun auxiliar domY =>
          let res := (d x).filter
            (fun domX => decide (chAt domX xOverlap = chAt domY yOverlap))
          let res := res.erase domY
          auxiliar ++ res.filter (fun w => decide (w ∉ auxiliar)))
        []
    some (Function.update d x auxiliar, pyNeNatSet xOriginal.length auxiliar)

/-- Outcome of the `ac3` worklist loop: a returned boolean together with
the final domain store, a `crash` when `revise` hits an absent overlap
record, or `fuelOut` when the given number of loop iterations is
insufficient (in particular when the Python loop never terminates). -/
inductive AC3Out where
  | ok (b : Bool) (d : DomainMap)
  | crash
  | fuelOut

/-- The initial worklist built by `ac3` (its `arcs` parameter is ignored
by the source, which always rebuilds the full list): for every variable
`var` and every `vecino` among its neighbors, the arc `(vecino, var)`. -/
def initialQueue (c : Crossword) : List (Variable × Variable) :=
  (c.vars.map (fun var => (neighbors c var).map (fun vecino => (vecino, var)))).flatten

/-- The `while len(quee)!=0` loop of `ac3`, with explicit fuel: pop the
front arc, call `revise`; if it reports a revision, test
`self.domains[q[0]] == 0` (see `pyEqSetNat`), then re-enqueue
`(vecino, q[0])` for every neighbor of `q[0]` except `q[1]`. -/
def ac3Go (c : Crossword) : Nat → List (Variable × Variable) → DomainMap → AC3Out
  | 0, _, _ => AC3Out.fuelOut
  | _ + 1, [], d => AC3Out.ok true d
  | fuel + 1, q :: rest, d =>
    match revise c d q.1 q.2 with
    | none => AC3Out.crash
    | some revised =>
      if revised.2 then
        if pyEqSetNat (revised.1 q.1) 0 then AC3Out.ok false revised.1
        else
          let vecinos := (neighbors c q.1).erase q.2
          ac3Go c fuel (rest ++ vecinos.map (fun vecino => (vecino, q.1))) revised.1
      else ac3Go c fuel rest revised.1

/-- `ac3()` as called by `solve` (no explicit arcs). -/
def ac3 (c : Crossword) (fuel : Nat) (d : DomainMap) : AC3Out :=
  ac3Go c fuel (initialQueue c) d

/-- `consistent(assignment)`: fold over the assigned pairs; when the
slot's length equals its word's length, check every assigned neighbor's
overlap characters, setting the flag to `False` on a mismatch; otherwise
the source executes `consistent=False`, a dead store into a misspelled
fresh local, leaving the returned flag `consisten` unchanged. -/
def consistent (c : Crossword) (a : Assignment) : Bool :=
  a.foldl
    (fun consisten p =>
      if p.1.length = p.2.length then
        ((neighbors c p.1).filter (fun u => (lookupA a u).isSome)).foldl
          (fun consisten vecino =>
            match c.overlaps p.1 vecino, lookupA a vecino with
            | some overlap, some wv =>
              if chAt p.2 overlap.1 ≠ chAt wv overlap.2 then false else consisten
            | _, _ => consisten)
          consisten
      else consisten)
    true

/-- `assignment_complete(assignment)`: every crossword variable has a key
(by count) and the assignment is `consistent`. -/
def assignment_complete (c : Crossword) (a : Assignment) : Bool :=
  (c.vars.length = a.length : Bool) && consistent c a

/-- `order_domain_values(var, assignment)`. In the source,
`knownVecinos = set(assignment.keys()).intersection_update(vecinos)` is
Python `None` (`intersection_update` mutates its receiver and returns
`None`), so `if knownVecinos:` always falls through to the `else` branch,
which returns `list(domOriginal)` and leaves the domain store untouched;
the `if` branch (a scratch `revise` loop ending in `list.sort()`) is
unreachable, so its value here is immaterial. The unchanged domain store
is returned alongside the list. -/
def order_domain_values (dom : DomainMap) (var : Variable) (_assignment : Assignment) :
    List Word × DomainMap :=
  let domOriginal := dom var
  let knownVecinos : Option (List Variable) := none
  match knownVecinos with
  | some _ => ([], dom)
  | none => (domOriginal, dom)

/-- `select_unassigned_variable(assignment)`: `unusedVar` is the symmetric
difference of the variable set and the assigned keys; `maxdatosDict` maps
each to its domain size, `degreeDatosDict` to its neighbor count; the
entries attaining the maxima are kept; when more than one variable is
unassigned, both branches return `list(degreeDict.keys()).pop()` (the last
max-degree entry), otherwise the last entry of `maxDict`. `none` models
the `ValueError` raised by `max()` when no variable is unassigned. -/
def select_unassigned_variable (c : Crossword) (dom : DomainMap) (a : Assignment) :
    Option Variable :=
  let usedVariables := a.map Prod.fst
  let unusedVar := c.vars.filter (fun v => decide (v ∉ usedVariables)) ++
    usedVariables.filter (fun v => decide (v ∉ c.vars))
  let maxdatosDict := unusedVar.map (fun x => (x, (dom x).length))
  let degreeDatosDict := unusedVar.map (fun x => (x, (neighbors c x).length))
  match (maxdatosDict.map Prod.snd).max?, (degreeDatosDict.map Prod.snd).max? with
  | some m, some dm =>
    let maxDict := maxdatosDict.filter (fun kv => decide (kv.2 = m))
    let degreeDict := degreeDatosDict.filter (fun kv => decide (kv.2 = dm))
    if maxdatosDict.length > 1 then
      if degreeDict.length > 1 then (degreeDict.map Prod.fst).getLast?
      else (degreeDict.map Prod.fst).getLast?
    else (maxDict.map Prod.fst).getLast?
  | _, _ => none

/-- The `for value in self.order_domain_values(...)` loop of `backtrack`:
set `assignment[variable]=value`; if consistent, recurse and return the
recursion's result unconditionally (the source's
`if result!=None: return result` is followed by `return result`, so a
failed recursion is also returned at once); otherwise pop the tentative
entry and continue. The pair carries the result together with the state
of the assignment dict at exit. -/
def tryVals (c : Crossword) (next : Assignment → Option Assignment × Assignment)
    (var : Variable) : List Word → Assignment → Option Assignment × Assignment
  | [], a => (none, a)
  | value :: rest, a =>
    let a1 := insertA a var value
    if consistent c a1 then next a1
    else tryVals c next var rest (eraseA a1 var)

/-- `backtrack(assignment)`, with fuel bounding the recursion depth (the
depth is at most the number of variables plus one on every path reachable
from `solve`): return the assignment when complete, otherwise select a
variable and run the candidate-value loop (`tryVals`). `(none, a)` on the
selection `match` models the `ValueError` raised by
`select_unassigned_variable` when every variable is already assigned. -/
def btk (c : Crossword) (dom : DomainMap) : Nat → Assignment → Option Assignment × Assignment
  | 0, a => (none, a)
  | fuel + 1, a =>
    if assignment_complete c a then (some a, a)
    else
      match select_unassigned_variable c dom a with
      | none => (none, a)
      | some var =>
        tryVals c (btk c dom fuel) var (order_domain_values dom var a).1 a

/-- `solve()`: seed every slot's domain with a copy of the word pool
(`__init__`), run `enforce_node_consistency`, run `ac3` discarding its
return value (the source never inspects it), then `backtrack(dict())`.
`none` also stands for the runs in which the Python `ac3` loop never
terminates (`fuelOut`) or raises (`crash`), i.e. in which `solve` never
returns a value. -/
def solve (c : Crossword) (acFuel : Nat) : Option Assignment :=
  let d0 : DomainMap := fun _ => c.words
  let d1 := enforce_node_consistency d0
  match ac3 c acFuel d1 with
  | AC3Out.ok _ d2 => (btk c d2 (c.vars.length + 1) []).1
  | AC3Out.crash => none
  | AC3Out.fuelOut => none

/-- Well-formedness of the puzzle model assumed of the collaborator
(spec §7: overlap indices in range is the collaborator's contract): every
overlap record between listed slots has its indices within the two slots'
lengths. -/
def overlapWF (c : Crossword) : Bool :=
  c.vars.all fun x => c.vars.all fun y =>
    match c.overlaps x y with
    | some ov => decide (ov.1 < x.length) && decide (ov.2 < y.length)
    | none => true

/-- Follows the claim's words, independently of the engine: the
assignment assigns every slot of the puzzle (and each slot at most once,
its keys being duplicate-free), every assigned word's length equals its
slot's length, and every pair of distinct assigned slots with an overlap
record agrees on the overlapped characters (both positions in range). -/
def specValidB (c : Crossword) (a : Assignment) : Bool :=
  decide ((a.map Prod.fst).Nodup) &&
  c.vars.all (fun v => decide (v ∈ a.map Prod.fst)) &&
  a.all (fun p => decide (p.2.length = p.1.length)) &&
  a.all (fun p => a.all (fun q =>
    if p.1 = q.1 then true
    else
      match c.overlaps p.1 q.1 with
      | some ov =>
        (p.2.get? ov.1).isSome && decide (p.2.get? ov.1 = q.2.get? ov.2)
      | none => true))

/-- The overlap check that `consistent` performs for one assigned pair
`p` against one assigned neighbor `vecino` (true when no mismatch is
detected). -/
def innerOk (c : Crossword) (a : Assignment) (p : Variable × Word) (vecino : Variable) : Bool :=
  match c.overlaps p.1 vecino, lookupA a vecino with
  | some overlap, some wv => decide (chAt p.2 overlap.1 = chAt wv overlap.2)
  | _, _ => true

/-- The whole check that `consistent` performs for one assigned pair. -/
def outerOk (c : Crossword) (a : Assignment) (p : Variable × Word) : Bool :=
  if p.1.length = p.2.length then
    ((neighbors c p.1).filter (fun u => (lookupA a u).isSome)).all (innerOk c a p)
  else true

/-! Concrete puzzle instances used by the theorems below.  `cAB` is the
puzzle of spec §8's concrete scenario shape: two slots of length 2
crossing at their first characters. -/

def wAB : Word := ['A', 'B']
def wAC : Word := ['A', 'C']
def wCD : Word := ['C', 'D']
def wAD : Word := ['A', 'D']
def wCB : Word := ['C', 'B']
def wXYZ : Word := ['X', 'Y', 'Z']

def vAcr : Variable := ⟨0, 0, true, 2⟩
def vDwn : Variable := ⟨0, 0, false, 2⟩

/-- Two slots of length 2 crossing at their first characters. -/
def cAB : Crossword where
  vars := [vAcr, vDwn]
  words := []
  overlaps := fun x y =>
    if (x = vAcr ∧ y = vDwn) ∨ (x = vDwn ∧ y = vAcr) then some (0, 0) else none

/-- The same two crossing slots with a word pool, for running `solve`. -/
def cSolve : Crossword where
  vars := [vAcr, vDwn]
  words := [wAB, wAC]
  overlaps := cAB.overlaps

def dC2 : DomainMap := fun v =>
  if v = vAcr then [wAB] else if v = vDwn then [wCD] else []

def dC3 : DomainMap := fun v =>
  if v = vAcr then [wAB] else if v = vDwn then [wCD, wAD] else []

def dC4 : DomainMap := fun v =>
  if v = vAcr then [wAB, wCD] else if v = vDwn then [wAB, wCD] else []

def dC6 : DomainMap := fun v =>
  if v = vAcr then [wAB, wCB] else if v = vDwn then [wCD] else []

def dC6self : DomainMap := fun v =>
  if v = vAcr then [wAB] else if v = vDwn then [wAB] else []

/-- The result of `revise` on `dC6self` (the domain-store component and
the returned flag), with an immaterial fallback for the impossible
`None`. -/
def reviseC6self : DomainMap × Bool := (revise cAB dC6self vAcr vDwn).getD (dC6self, false)

/-- The result of `revise` on `dC4`, with an immaterial fallback for the
impossible `None`. -/
def reviseC9 : DomainMap × Bool := (revise cAB dC4 vAcr vDwn).getD (dC4, false)

/-- The boolean returned by `ac3` on `dC4`. -/
def ac3C9b : Bool := match ac3 cAB 5 dC4 with | AC3Out.ok b _ => b | _ => false

/-- The domain store left by `ac3` on `dC4`. -/
def ac3C9d : DomainMap := match ac3 cAB 5 dC4 with | AC3Out.ok _ d => d | _ => dC4

/-- The result of `revise` on `dC6`, with an immaterial fallback for the
impossible `None`. -/
def reviseC6amd : DomainMap × Bool := (revise cAB dC6 vAcr vDwn).getD (dC6, false)

def vH0 : Variable := ⟨0, 0, true, 2⟩
def vH1 : Variable := ⟨1, 0, true, 2⟩
def vV0 : Variable := ⟨0, 0, false, 2⟩
def vV1 : Variable := ⟨0, 1, false, 2⟩

/-- A fully open 2-by-2 grid: two across slots and two down slots of
length 2, every across slot crossing every down slot. -/
def cBox : Crossword where
  vars := [vH0, vH1, vV0, vV1]
  words := []
  overlaps := fun x y =>
    if x = vH0 ∧ y = vV0 then some (0, 0)
    else if x = vV0 ∧ y = vH0 then some (0, 0)
    else if x = vH0 ∧ y = vV1 then some (1, 0)
    else if x = vV1 ∧ y = vH0 then some (0, 1)
    else if x = vH1 ∧ y = vV0 then some (0, 1)
    else if x = vV0 ∧ y = vH1 then some (1, 0)
    else if x = vH1 ∧ y = vV1 then some (1, 1)
    else if x = vV1 ∧ y = vH1 then some (1, 1)
    else none

/-- Every arc of `cBox`, in either orientation. -/
def boxArcs : List (Variable × Variable) :=
  [(vV0, vH0), (vV1, vH0), (vV0, vH1), (vV1, vH1),
   (vH0, vV0), (vH1, vV0), (vH0, vV1), (vH1, vV1)]

def vX8 : Variable := ⟨0, 0, true, 2⟩
def vY8 : Variable := ⟨0, 0, false, 2⟩
def vZ8 : Variable := ⟨1, 0, true, 2⟩

/-- Three slots: `vY8` crosses both `vX8` and `vZ8`. -/
def c8 : Crossword where
  vars := [vX8, vY8, vZ8]
  words := []
  overlaps := fun x y =>
    if (x = vX8 ∧ y = vY8) ∨ (x = vY8 ∧ y = vX8) then some (0, 0)
    else if x = vY8 ∧ y = vZ8 then some (1, 0)
    else if x = vZ8 ∧ y = vY8 then some (0, 1)
    else none

def d8 : DomainMap := fun v =>
  if v = vX8 then [wAB]
  else if v = vY8 then [wAB, wCD, wAD]
  else if v = vZ8 then [wAB, wCD] else []

def vA7 : Variable := ⟨0, 0, true, 2⟩

/-- A single isolated slot of length 2. -/
def cC7 : Crossword where
  vars := [vA7]
  words := []
  overlaps := fun _ _ => none


/-! Helper lemmas. -/

theorem mem_neighbors_isSome {c : Crossword} {v u : Variable}
    (h : u ∈ neighbors c v) : (c.overlaps v u).isSome := by
  simp only [neighbors, List.mem_filter, Bool.and_eq_true, decide_eq_true_eq] at h
  exact h.2.2

theorem ac3Go_ne_crash (c : Crossword) :
    ∀ (fuel : Nat) (q : List (Variable × Variable)) (d : DomainMap),
      (∀ p ∈ q, (c.overlaps p.2 p.1).isSome) → ac3Go c fuel q d ≠ AC3Out.crash := by
  intro fuel
  induction fuel with
  | zero => intro q d _ h; simp [ac3Go] at h
  | succ n ih =>
    intro q d hq
    match q with
    | [] => simp [ac3Go]
    | (x, y) :: rest =>
      have hxy : (c.overlaps y x).isSome := hq (x, y) (List.mem_cons_self _ _)
      obtain ⟨ov, hov⟩ := Option.isSome_iff_exists.mp hxy
      simp only [ac3Go, revise, hov, pyNeNatSet, pyEqSetNat, if_true, Bool.false_eq_true,
        if_false]
      apply ih
      intro p hp
      rcases List.mem_append.mp hp with h | h
      · exact hq p (List.mem_cons_of_mem _ h)
      · obtain ⟨z, hz, rfl⟩ := List.mem_map.mp h
        exact mem_neighbors_isSome (List.mem_of_mem_erase hz)

theorem boxArcs_facts : ∀ p ∈ boxArcs, (cBox.overlaps p.2 p.1).isSome = true ∧
    ((neighbors cBox p.1).erase p.2).map (fun z => (z, p.1)) ≠ [] ∧
    ∀ q ∈ ((neighbors cBox p.1).erase p.2).map (fun z => (z, p.1)), q ∈ boxArcs := by
  decide

theorem ac3Go_cBox_fuelOut :
    ∀ (fuel : Nat) (q : List (Variable × Variable)) (d : DomainMap),
      q ≠ [] → (∀ p ∈ q, p ∈ boxArcs) → ac3Go cBox fuel q d = AC3Out.fuelOut := by
  intro fuel
  induction fuel with
  | zero => intro q d _ _; cases q <;> rfl
  | succ n ih =>
    intro q d hne hq
    match q with
    | [] => exact absurd rfl hne
    | (x, y) :: rest =>
      obtain ⟨hov, hne2, hsub⟩ := boxArcs_facts (x, y) (hq (x, y) (List.mem_cons_self _ _))
      obtain ⟨ov, hov'⟩ := Option.isSome_iff_exists.mp hov
      simp only [ac3Go, revise, hov', pyNeNatSet, pyEqSetNat, if_true, Bool.false_eq_true,
        if_false]
      apply ih
      · intro hcontra
        rw [List.append_eq_nil] at hcontra
        exact hne2 hcontra.2
      · intro p hp
        rcases List.mem_append.mp hp with h | h
        · exact hq p (List.mem_cons_of_mem _ h)
        · exact hsub p h

/-! Claim theorems. -/

/-- C10: every arc `(x, y)` that `ac3` (called with no explicit arcs, as
`solve` calls it) hands to `revise` consists of two neighboring slots, so
`revise`'s lookup of `crossword.overlaps[y, x]` always finds a present
overlap record: the missing-overlap failure case inside `revise`
(modelled as `AC3Out.crash`) is unreachable from `ac3`, for every puzzle
model, fuel and domain store. -/
theorem c10_revise_lookup_never_missing (c : Crossword) (fuel : Nat) (d : DomainMap) :
    ac3 c fuel d ≠ AC3Out.crash := by
  apply ac3Go_ne_crash
  intro p hp
  simp only [initialQueue, List.mem_flatten, List.mem_map] at hp
  obtain ⟨_, ⟨var, _, rfl⟩, hpl⟩ := hp
  obtain ⟨vecino, hvec, rfl⟩ := List.mem_map.mp hpl
  exact mem_neighbors_isSome hvec

/-- C5: the claim that the `ac3` worklist loop always terminates is false
on the code: on `cBox` (a fully open 2-by-2 grid, whose four slots each
have two neighbors) the loop never terminates for any starting domain
store, because `revise` always reports a revision (`pyNeNatSet`) and so
every popped arc re-enqueues a replacement arc forever; no amount of fuel
makes the loop return. -/
theorem c5_ac3_never_terminates_on_cBox (fuel : Nat) (d : DomainMap) :
    ac3 cBox fuel d = AC3Out.fuelOut := by
  apply ac3Go_cBox_fuelOut
  · decide
  · decide

/-- C2: the claim that whenever `backtrack(a)` returns no-solution the
assignment is restored to its entry state is false on the code: on `cAB`
with domains `dC2` (the across slot can only take `"AB"`, the down slot
only `"CD"`, and the two clash at the crossing), `backtrack({})` returns
`None` with the tentative entry `vDwn = "CD"` still present, because the
failure path of a consistent candidate executes `return result` without
popping the tentative assignment. -/
theorem c2_backtrack_leaves_residual_entry :
    (btk cAB dC2 10 []).1 = none ∧ (btk cAB dC2 10 []).2 = [(vDwn, wCD)] ∧
      [(vDwn, wCD)] ≠ ([] : Assignment) := by decide

/-- C3: the claim that a consistent candidate whose recursion fails is
undone and the next candidate tried is false on the code: on `cAB` with
domains `dC3`, the first candidate `"CD"` for the down slot is consistent
but its recursion fails, and `backtrack({})` returns `None` at once
(first conjunct) even though the next candidate `"AD"` leads to a
complete solution (second conjunct: resuming from `vDwn = "AD"`
succeeds). -/
theorem c3_backtrack_never_tries_next_candidate :
    (btk cAB dC3 10 []).1 = none ∧
      (btk cAB dC3 10 [(vDwn, wAD)]).1 = some [(vDwn, wAD), (vAcr, wAB)] := by decide

/-- C4: the claim that `ac3` returns failure exactly when a domain is
emptied is false on the code: on `cAB` with domains `dC4` (no word of
either slot can agree with a distinct word of the other at the crossing,
so both domains are emptied during propagation), `ac3` still returns
success, because its emptiness test `self.domains[q[0]] == 0` compares a
set with an integer and is never true. -/
theorem c4_ac3_true_despite_emptied_domains :
    (match ac3 cAB 5 dC4 with
      | AC3Out.ok b d => b = true ∧ d vAcr = [] ∧ d vDwn = []
      | _ => False) := by exact ⟨rfl, rfl, rfl⟩

/-- C6: the claim that a word `w` of `domain[x]` is retained when some
`v` of `domain[y]` matches it at the overlap, with `v = w` allowed, is
false on the code: with both domains `{"AB"}` and the overlap at the
first characters, `"AB"` is its own support (third conjunct), yet
`revise` removes it (`res.remove(domY)` discards the candidate equal to
the supporting word), leaving the revised domain empty. -/
theorem c6_revise_removes_self_supported_word :
    wAB ∈ dC6self vAcr ∧ wAB ∈ dC6self vDwn ∧ chAt wAB 0 = chAt wAB 0 ∧
      wAB ∉ reviseC6self.1 vAcr := by decide

/-- C7: the claim that an assignment containing a word whose length
differs from its slot's length is judged inconsistent is false on the
code: slot `vA7` has length 2 and `"XYZ"` has length 3, yet
`consistent` returns `True`, because the length-mismatch branch assigns
to a misspelled fresh local (`consistent`) instead of the returned flag
(`consisten`). -/
theorem c7_consistent_ignores_length_mismatch :
    consistent cC7 [(vA7, wXYZ)] = true ∧ vA7.length = 2 ∧ wXYZ.length = 3 := by decide

/-- C8: the claim that `select_unassigned_variable` returns an unassigned
slot with the fewest remaining candidate words (degree only as a
tie-break) is false on the code: on `c8` with the empty assignment, slot
`vX8` has 1 candidate and `vY8` has 3, yet the function returns `vY8`
(whenever more than one slot is unassigned the code returns a
maximum-degree slot, ignoring domain sizes). -/
theorem c8_select_ignores_domain_counts :
    select_unassigned_variable c8 d8 [] = some vY8 ∧ vX8 ∈ c8.vars ∧ vX8 ≠ vY8 ∧
      (d8 vX8).length < (d8 vY8).length := by decide

theorem foldlRec {α β : Type} (f : β → α → β) (I : β → Prop) :
    ∀ (L : List α) (b : β), I b → (∀ b a, I b → I (f b a)) → I (L.foldl f b) := by
  intro L
  induction L with
  | nil => intro b hb _; exact hb
  | cons x t ih => intro b hb hstep; exact ih _ (hstep _ _ hb) hstep

theorem revise_subset {c : Crossword} {d : DomainMap} {x y : Variable}
    {p : DomainMap × Bool} (h : revise c d x y = some p) : ∀ v, p.1 v ⊆ d v := by
  rcases hov : c.overlaps y x with _ | ov
  · simp [revise, hov] at h
  · simp only [revise, hov] at h
    injection h with h
    subst h
    intro v
    dsimp only
    rcases eq_or_ne v x with rfl | hne
    · rw [Function.update_same]
      apply foldlRec _ (fun acc => acc ⊆ d v)
      · intro w hw; cases hw
      · intro acc a hacc w hw
        rcases List.mem_append.mp hw with hw | hw
        · exact hacc hw
        · exact List.mem_of_mem_filter (List.mem_of_mem_erase (List.mem_of_mem_filter hw))
    · rw [Function.update_noteq hne]
      exact fun w hw => hw

theorem ac3Go_subset (c : Crossword) :
    ∀ (fuel : Nat) (q : List (Variable × Variable)) (d : DomainMap) (b : Bool)
      (d2 : DomainMap), ac3Go c fuel q d = AC3Out.ok b d2 → ∀ v, d2 v ⊆ d v := by
  intro fuel
  induction fuel with
  | zero => intro q d b d2 h; simp [ac3Go] at h
  | succ n ih =>
    intro q d b d2 h
    match q with
    | [] =>
      simp only [ac3Go, AC3Out.ok.injEq] at h
      rw [← h.2]
      exact fun v => List.Subset.refl _
    | (x, y) :: rest =>
      rcases hrev : revise c d x y with _ | p
      · simp [ac3Go, hrev] at h
      · have hsub := revise_subset hrev
        simp only [ac3Go, hrev, pyEqSetNat, Bool.false_eq_true, if_false] at h
        rcases hp2 : p.2 with _ | _ <;> rw [hp2] at h <;> simp only [if_true, if_false,
          Bool.false_eq_true] at h
        · exact fun v => (ih _ _ _ _ h v).trans (hsub v)
        · exact fun v => (ih _ _ _ _ h v).trans (hsub v)

/-- C9: domains only shrink, never grow: node consistency keeps a subset
of every slot's domain; a successful `revise` leaves every slot's domain
a subset of what it was; whenever `ac3` returns, every slot's final
domain is a subset of its initial one; and `order_domain_values` returns
the domain store unchanged (its would-be mutating branch is dead code)
together with a sublist of the slot's domain. The backtracking search
(`btk`) threads the domain store as an immutable parameter and performs
no domain operation other than these. -/
theorem c9_domains_only_shrink :
    (∀ (d : DomainMap) (v : Variable), enforce_node_consistency d v ⊆ d v) ∧
    (∀ (c : Crossword) (d : DomainMap) (x y : Variable) (p : DomainMap × Bool),
      revise c d x y = some p → ∀ v, p.1 v ⊆ d v) ∧
    (∀ (c : Crossword) (fuel : Nat) (d : DomainMap) (b : Bool) (d2 : DomainMap),
      ac3 c fuel d = AC3Out.ok b d2 → ∀ v, d2 v ⊆ d v) ∧
    (∀ (dom : DomainMap) (var : Variable) (a : Assignment),
      (order_domain_values dom var a).2 = dom ∧
        (order_domain_values dom var a).1 ⊆ dom var) := by
  refine ⟨?_, ?_, ?_, ?_⟩
  · intro d v w hw; exact List.mem_of_mem_filter hw
  · intro c d x y p h; exact revise_subset h
  · intro c fuel d b d2 h; exact ac3Go_subset c fuel _ d b d2 h
  · intro dom var a; exact ⟨rfl, fun w hw => hw⟩

theorem c9_witness :
    enforce_node_consistency dC4 vAcr ⊆ dC4 vAcr ∧
    reviseC9.1 vAcr ⊆ dC4 vAcr ∧
    ac3C9d vAcr ⊆ dC4 vAcr ∧
    (order_domain_values dC4 vAcr []).2 = dC4 :=
  ⟨c9_domains_only_shrink.1 dC4 vAcr,
   c9_domains_only_shrink.2.1 cAB dC4 vAcr vDwn reviseC9 rfl vAcr,
   c9_domains_only_shrink.2.2.1 cAB 5 dC4 ac3C9b ac3C9d rfl vAcr,
   (c9_domains_only_shrink.2.2.2 dC4 vAcr []).1⟩

theorem revise_foldl_mem (dx dy : List Word) (xo yo : Nat) (w : Word) :
    ∀ acc : List Word,
      (w ∈ dy.foldl (fun auxiliar domY => auxiliar ++
          (((dx.filter (fun domX => decide (chAt domX xo = chAt domY yo))).erase domY).filter
            (fun u => decide (u ∉ auxiliar)))) acc
        ↔ w ∈ acc ∨ ∃ v ∈ dy,
            w ∈ (dx.filter (fun domX => decide (chAt domX xo = chAt v yo))).erase v) := by
  induction dy with
  | nil => intro acc; simp
  | cons v t ih =>
    intro acc
    rw [List.foldl_cons, ih]
    constructor
    · rintro (h | h)
      · rcases List.mem_append.mp h with h | h
        · exact Or.inl h
        · exact Or.inr ⟨v, List.mem_cons_self _ _, List.mem_of_mem_filter h⟩
      · obtain ⟨u, hu, hw⟩ := h
        exact Or.inr ⟨u, List.mem_cons_of_mem _ hu, hw⟩
    · rintro (h | ⟨u, hu, hw⟩)
      · exact Or.inl (List.mem_append.mpr (Or.inl h))
      · rcases List.mem_cons.mp hu with rfl | hu
        · by_cases hacc : w ∈ acc
          · exact Or.inl (List.mem_append.mpr (Or.inl hacc))
          · exact Or.inl (List.mem_append.mpr (Or.inr
              (List.mem_filter.mpr ⟨hw, by simpa using hacc⟩)))
        · exact Or.inr ⟨u, hu, hw⟩

/-- C6 (amended): on the code, `revise(x, y)` retains a word `w` of
`domain[x]` if and only if `w` was in `domain[x]` and some word `v` of
`domain[y]` DISTINCT from `w` matches it at the overlap: support does
require value distinction (`res.remove(domY)` removes the candidate equal
to the supporting word from each batch), and exactly the words without
such distinct support are removed. Stated for duplicate-free domains
(Python domains are sets). -/
theorem c6_amended_revise_requires_distinct_support (c : Crossword) (d : DomainMap)
    (x y : Variable) (ov : Nat × Nat) (p : DomainMap × Bool) (w : Word)
    (hov : c.overlaps y x = some ov) (hnd : (d x).Nodup)
    (h : revise c d x y = some p) :
    w ∈ p.1 x ↔ w ∈ d x ∧ ∃ v ∈ d y, v ≠ w ∧ chAt w ov.2 = chAt v ov.1 := by
  simp only [revise, hov] at h
  injection h with h
  subst h
  dsimp only
  rw [Function.update_same, revise_foldl_mem]
  simp only [List.not_mem_nil, false_or]
  constructor
  · rintro ⟨v, hv, hw⟩
    rw [List.Nodup.mem_erase_iff (hnd.filter _)] at hw
    obtain ⟨hwv, hwf⟩ := hw
    obtain ⟨hwdx, hch⟩ := List.mem_filter.mp hwf
    exact ⟨hwdx, v, hv, Ne.symm hwv, of_decide_eq_true hch⟩
  · rintro ⟨hwdx, v, hv, hvw, hch⟩
    refine ⟨v, hv, ?_⟩
    rw [List.Nodup.mem_erase_iff (hnd.filter _)]
    exact ⟨Ne.symm hvw, List.mem_filter.mpr ⟨hwdx, decide_eq_true hch⟩⟩

theorem c6_amended_witness : wCB ∈ reviseC6amd.1 vAcr :=
  (c6_amended_revise_requires_distinct_support cAB dC6 vAcr vDwn (0, 0) reviseC6amd wCB
    rfl (by decide) rfl).mpr (by decide)

theorem foldl_and {α : Type} (g : α → Bool) :
    ∀ (L : List α) (init : Bool), L.foldl (fun b x => b && g x) init = (init && L.all g) := by
  intro L
  induction L with
  | nil => intro init; simp
  | cons x t ih => intro init; rw [List.foldl_cons, ih, List.all_cons, Bool.and_assoc]

theorem consistent_inner_step (c : Crossword) (a : Assignment) (p : Variable × Word) :
    (fun (consisten : Bool) (vecino : Variable) =>
      match c.overlaps p.1 vecino, lookupA a vecino with
      | some overlap, some wv =>
        if chAt p.2 overlap.1 ≠ chAt wv overlap.2 then false else consisten
      | _, _ => consisten)
    = fun b vecino => b && innerOk c a p vecino := by
  funext b vecino
  rcases hov : c.overlaps p.1 vecino with _ | ov <;>
    rcases hlk : lookupA a vecino with _ | wv <;>
      simp only [innerOk, hov, hlk, Bool.and_true]
  by_cases h : chAt p.2 ov.1 = chAt wv ov.2 <;> simp [h]

theorem consistent_eq_all (c : Crossword) (a : Assignment) :
    consistent c a = a.all (outerOk c a) := by
  have hstep : (fun (consisten : Bool) (p : Variable × Word) =>
      if p.1.length = p.2.length then
        ((neighbors c p.1).filter (fun u => (lookupA a u).isSome)).foldl
          (fun consisten vecino =>
            match c.overlaps p.1 vecino, lookupA a vecino with
            | some overlap, some wv =>
              if chAt p.2 overlap.1 ≠ chAt wv overlap.2 then false else consisten
            | _, _ => consisten)
          consisten
      else consisten)
      = fun b p => b && outerOk c a p := by
    funext b p
    by_cases hl : p.1.length = p.2.length
    · rw [if_pos hl, consistent_inner_step c a p, foldl_and, outerOk, if_pos hl]
    · rw [if_neg hl, outerOk, if_neg hl, Bool.and_true]
  simp only [consistent]
  rw [hstep, foldl_and, Bool.true_and]

theorem consistent_spec {c : Crossword} {a : Assignment} (h : consistent c a = true) :
    ∀ p ∈ a, p.1.length = p.2.length →
      ∀ vecino ∈ neighbors c p.1, ∀ wv, lookupA a vecino = some wv →
        ∀ ov, c.overlaps p.1 vecino = some ov → chAt p.2 ov.1 = chAt wv ov.2 := by
  rw [consistent_eq_all, List.all_eq_true] at h
  intro p hp hl vecino hvec wv hwv ov hov
  have h1 := h p hp
  rw [outerOk, if_pos hl, List.all_eq_true] at h1
  have hmem : vecino ∈ (neighbors c p.1).filter (fun u => (lookupA a u).isSome) :=
    List.mem_filter.mpr ⟨hvec, by rw [hwv]; rfl⟩
  have h2 := h1 vecino hmem
  simp only [innerOk, hov, hwv, decide_eq_true_eq] at h2
  exact h2

theorem assignment_complete_spec {c : Crossword} {a : Assignment}
    (h : assignment_complete c a = true) :
    c.vars.length = a.length ∧ consistent c a = true := by
  rw [assignment_complete, Bool.and_eq_true] at h
  exact ⟨of_decide_eq_true h.1, h.2⟩

theorem overlapWF_spec {c : Crossword} (h : overlapWF c = true) :
    ∀ x ∈ c.vars, ∀ y ∈ c.vars, ∀ ov, c.overlaps x y = some ov →
      ov.1 < x.length ∧ ov.2 < y.length := by
  rw [overlapWF, List.all_eq_true] at h
  intro x hx y hy ov hov
  have h1 := h x hx
  rw [List.all_eq_true] at h1
  have h2 := h1 y hy
  simp only [hov, Bool.and_eq_true, decide_eq_true_eq] at h2
  exact h2

theorem hasKeyA_eq_false {a : Assignment} {v : Variable} (h : v ∉ a.map Prod.fst) :
    hasKeyA a v = false := by
  induction a with
  | nil => rfl
  | cons p t ih =>
    rw [List.map_cons, List.mem_cons] at h
    push_neg at h
    rw [hasKeyA, if_neg (fun he => h.1 he.symm)]
    exact ih h.2

theorem lookupA_eq_of_mem : ∀ {a : Assignment} {q : Variable × Word},
    (a.map Prod.fst).Nodup → q ∈ a → lookupA a q.1 = some q.2 := by
  intro a
  induction a with
  | nil => intro q _ h; cases h
  | cons p t ih =>
    intro q hnd hq
    rw [List.map_cons, List.nodup_cons] at hnd
    rcases List.mem_cons.mp hq with rfl | hq
    · simp [lookupA]
    · have hne : p.1 ≠ q.1 :=
        fun he => hnd.1 (he ▸ List.mem_map_of_mem Prod.fst hq)
      simp only [lookupA, if_neg hne]
      exact ih hnd.2 hq

theorem lookupA_isSome_of_mem {a : Assignment} {v : Variable}
    (h : v ∈ a.map Prod.fst) : (lookupA a v).isSome = true := by
  induction a with
  | nil => cases h
  | cons p t ih =>
    rw [List.map_cons, List.mem_cons] at h
    by_cases he : p.1 = v
    · simp [lookupA, he]
    · simp only [lookupA, if_neg he]
      exact ih (h.resolve_left (fun hv => he hv.symm))

theorem insertA_of_not_mem {a : Assignment} {v : Variable} {w : Word}
    (h : v ∉ a.map Prod.fst) : insertA a v w = a ++ [(v, w)] := by
  rw [insertA, hasKeyA_eq_false h]
  rfl

theorem erase_insertA {a : Assignment} {v : Variable} {w : Word}
    (h : v ∉ a.map Prod.fst) : eraseA (insertA a v w) v = a := by
  rw [insertA_of_not_mem h, eraseA, List.filter_append]
  have h1 : a.filter (fun p => decide (p.1 ≠ v)) = a := by
    rw [List.filter_eq_self]
    intro p hp
    exact decide_eq_true (fun he => h (he ▸ List.mem_map_of_mem Prod.fst hp))
  have h2 : ([(v, w)] : Assignment).filter (fun p => decide (p.1 ≠ v)) = [] := by simp
  rw [h1, h2, List.append_nil]

theorem getLast_filter_map_fst {unused : List Variable} {f : Variable → Nat}
    {pred : Variable × Nat → Bool} {var : Variable}
    (h : ((((unused.map (fun x => (x, f x))).filter pred).map Prod.fst).getLast?) = some var) :
    var ∈ unused := by
  obtain ⟨kv, hkv, rfl⟩ := List.mem_map.mp (List.mem_of_getLast?_eq_some h)
  obtain ⟨x, hx, rfl⟩ := List.mem_map.mp (List.mem_of_mem_filter hkv)
  exact hx

theorem select_mem {c : Crossword} {dom : DomainMap} {a : Assignment} {var : Variable}
    (hsub : ∀ k ∈ a.map Prod.fst, k ∈ c.vars)
    (h : select_unassigned_variable c dom a = some var) :
    var ∈ c.vars ∧ var ∉ a.map Prod.fst := by
  have hnil : (a.map Prod.fst).filter (fun v => decide (v ∉ c.vars)) = [] := by
    rw [List.filter_eq_nil_iff]
    intro k hk
    simp only [decide_eq_true_eq, Decidable.not_not]
    exact hsub k hk
  rw [select_unassigned_variable] at h
  simp only [hnil, List.append_nil] at h
  have hmem : var ∈ c.vars.filter (fun v => decide (v ∉ a.map Prod.fst)) := by
    rcases hm : ((c.vars.filter (fun v => decide (v ∉ a.map Prod.fst))).map
        (fun x => (x, (dom x).length))).map Prod.snd |>.max? with _ | m <;> rw [hm] at h
    · cases h
    · rcases hd : ((c.vars.filter (fun v => decide (v ∉ a.map Prod.fst))).map
          (fun x => (x, (neighbors c x).length))).map Prod.snd |>.max? with _ | dm <;>
        rw [hd] at h
      · cases h
      · dsimp only at h
        rw [ite_self] at h
        split at h
        · exact getLast_filter_map_fst h
        · exact getLast_filter_map_fst h
  rw [List.mem_filter, decide_eq_true_eq] at hmem
  exact hmem

theorem get?_eq_some_chAt {w : Word} {i : Nat} (h : i < w.length) :
    w.get? i = some (chAt w i) := by
  rw [List.get?_eq_get h]
  congr 1
  rw [chAt, List.getD_eq_getElem?_getD, List.getElem?_eq_getElem h]
  rfl

theorem specValidB_of_complete {c : Crossword} {a : Assignment}
    (hvnd : c.vars.Nodup) (hwf : overlapWF c = true)
    (hknd : (a.map Prod.fst).Nodup) (hsub : ∀ k ∈ a.map Prod.fst, k ∈ c.vars)
    (hlen : ∀ p ∈ a, (p.2 : Word).length = p.1.length)
    (hcomp : assignment_complete c a = true) : specValidB c a = true := by
  obtain ⟨hnum, hcons⟩ := assignment_complete_spec hcomp
  have hcover : ∀ v ∈ c.vars, v ∈ a.map Prod.fst := by
    intro v hv
    have h1 : (a.map Prod.fst).toFinset ⊆ c.vars.toFinset := by
      intro x hx
      rw [List.mem_toFinset] at hx ⊢
      exact hsub x hx
    have h2 : c.vars.toFinset.card ≤ (a.map Prod.fst).toFinset.card := by
      rw [List.toFinset_card_of_nodup hvnd, List.toFinset_card_of_nodup hknd,
        List.length_map, ← hnum]
    have heq := Finset.eq_of_subset_of_card_le h1 h2
    have h3 : v ∈ c.vars.toFinset := List.mem_toFinset.mpr hv
    rw [← heq] at h3
    exact List.mem_toFinset.mp h3
  rw [specValidB, Bool.and_eq_true, Bool.and_eq_true, Bool.and_eq_true]
  refine ⟨⟨⟨decide_eq_true hknd, ?_⟩, ?_⟩, ?_⟩
  · rw [List.all_eq_true]
    intro v hv
    exact decide_eq_true (hcover v hv)
  · rw [List.all_eq_true]
    intro p hp
    exact decide_eq_true (hlen p hp)
  · rw [List.all_eq_true]
    intro p hp
    rw [List.all_eq_true]
    intro q hq
    by_cases hpq : p.1 = q.1
    · rw [if_pos hpq]
    · rw [if_neg hpq]
      rcases hov : c.overlaps p.1 q.1 with _ | ov
      · simp only [hov]
      · simp only [hov]
        have hp1 : p.1 ∈ c.vars := hsub p.1 (List.mem_map_of_mem Prod.fst hp)
        have hq1 : q.1 ∈ c.vars := hsub q.1 (List.mem_map_of_mem Prod.fst hq)
        obtain ⟨hb1, hb2⟩ := overlapWF_spec hwf p.1 hp1 q.1 hq1 ov hov
        have hlp := hlen p hp
        have hlq := hlen q hq
        have hvecino : q.1 ∈ neighbors c p.1 := by
          rw [neighbors, List.mem_filter]
          refine ⟨hq1, ?_⟩
          rw [Bool.and_eq_true, hov]
          exact ⟨decide_eq_true (Ne.symm hpq), rfl⟩
        have hlq2 : lookupA a q.1 = some q.2 := lookupA_eq_of_mem hknd hq
        have hch := consistent_spec hcons p hp hlp.symm q.1 hvecino q.2 hlq2 ov hov
        have hg1 : p.2.get? ov.1 = some (chAt p.2 ov.1) :=
          get?_eq_some_chAt (by rw [hlp]; exact hb1)
        have hg2 : q.2.get? ov.2 = some (chAt q.2 ov.2) :=
          get?_eq_some_chAt (by rw [hlq]; exact hb2)
        rw [Bool.and_eq_true]
        refine ⟨by rw [hg1]; rfl, decide_eq_true ?_⟩
        rw [hg1, hg2, hch]

theorem tryVals_some {c : Crossword} {next : Assignment → Option Assignment × Assignment}
    {var : Variable} : ∀ {l : List Word} {a r a2 : Assignment},
      var ∉ a.map Prod.fst → tryVals c next var l a = (some r, a2) →
      ∃ w ∈ l, consistent c (insertA a var w) = true ∧
        next (insertA a var w) = (some r, a2) := by
  intro l
  induction l with
  | nil =>
    intro a r a2 _ h
    simp [tryVals] at h
  | cons w t ih =>
    intro a r a2 hvar h
    simp only [tryVals] at h
    by_cases hc : consistent c (insertA a var w) = true
    · rw [if_pos hc] at h
      exact ⟨w, List.mem_cons_self _ _, hc, h⟩
    · rw [if_neg hc, erase_insertA hvar] at h
      obtain ⟨w2, hw2, hc2, hn2⟩ := ih hvar h
      exact ⟨w2, List.mem_cons_of_mem _ hw2, hc2, hn2⟩

theorem btk_some_valid {c : Crossword} {dom : DomainMap}
    (hvnd : c.vars.Nodup) (hwf : overlapWF c = true)
    (hdom : ∀ v w, w ∈ dom v → (w : Word).length = v.length) :
    ∀ (fuel : Nat) (a r a2 : Assignment),
      (a.map Prod.fst).Nodup → (∀ k ∈ a.map Prod.fst, k ∈ c.vars) →
      (∀ p ∈ a, (p.2 : Word).length = p.1.length) →
      btk c dom fuel a = (some r, a2) → specValidB c r = true := by
  intro fuel
  induction fuel with
  | zero => intro a r a2 _ _ _ h; simp [btk] at h
  | succ n ih =>
    intro a r a2 hknd hsub hlen h
    rw [btk] at h
    by_cases hcomp : assignment_complete c a = true
    · rw [if_pos hcomp] at h
      have hr : a = r := by
        have := congrArg Prod.fst h
        exact Option.some_injective _ this
      rw [← hr]
      exact specValidB_of_complete hvnd hwf hknd hsub hlen hcomp
    · rw [if_neg hcomp] at h
      rcases hsel : select_unassigned_variable c dom a with _ | var <;> rw [hsel] at h
      · simp at h
      · obtain ⟨hvin, hvnot⟩ := select_mem hsub hsel
        obtain ⟨w, hwl, hcons1, hnext⟩ := tryVals_some hvnot h
        have hwdom : w ∈ dom var := hwl
        apply ih (insertA a var w) r a2 ?_ ?_ ?_ hnext
        · rw [insertA_of_not_mem hvnot, List.map_append, List.nodup_append]
          refine ⟨hknd, List.nodup_singleton _, ?_⟩
          intro k hk hk2
          simp only [List.map_cons, List.map_nil, List.mem_singleton] at hk2
          exact hvnot (hk2 ▸ hk)
        · intro k hk
          rw [insertA_of_not_mem hvnot, List.map_append] at hk
          rcases List.mem_append.mp hk with hk | hk
          · exact hsub k hk
          · simp only [List.map_cons, List.map_nil, List.mem_singleton] at hk
            exact hk ▸ hvin
        · intro p hp
          rw [insertA_of_not_mem hvnot] at hp
          rcases List.mem_append.mp hp with hp | hp
          · exact hlen p hp
          · rw [List.mem_singleton] at hp
            subst hp
            exact hdom var w hwdom

/-- C1: if `solve()` returns an assignment, that assignment is complete
and consistent in the claim's independent sense (`specValidB`): every
slot of the puzzle is assigned exactly one word (keys cover the slots and
are duplicate-free), every assigned word's length equals its slot's
length, and every pair of assigned slots with an overlap record agrees on
the overlapped characters. Assumed of the puzzle-model collaborator: the
slot list has no duplicates and overlap indices are within the slots'
lengths (`overlapWF`, spec §7's collaborator contract). -/
theorem c1_solve_returns_valid_assignment (c : Crossword) (acFuel : Nat) (r : Assignment)
    (hvnd : c.vars.Nodup) (hwf : overlapWF c = true)
    (h : solve c acFuel = some r) : specValidB c r = true := by
  simp only [solve] at h
  split at h
  next b d2 hac =>
    have hdom : ∀ v w, w ∈ d2 v → (w : Word).length = v.length := by
      intro v w hw
      simp only [ac3] at hac
      have hw1 := ac3Go_subset c acFuel (initialQueue c) _ b d2 hac v hw
      simp only [enforce_node_consistency] at hw1
      exact of_decide_eq_true (List.mem_filter.mp hw1).2
    rcases hb : btk c d2 (c.vars.length + 1) [] with ⟨res, a2⟩
    rw [hb] at h
    have h2 : res = some r := h
    subst h2
    exact btk_some_valid hvnd hwf hdom (c.vars.length + 1) [] r a2 (by simp) (by simp)
      (by simp) hb
  next hac => simp at h
  next hac => simp at h

theorem c1_witness : specValidB cSolve [(vDwn, wAC), (vAcr, wAB)] = true :=
  c1_solve_returns_valid_assignment cSolve 5 [(vDwn, wAC), (vAcr, wAB)]
    (by decide) (by decide) (by decide)

end Scrabble
